import Mathlib

/-!
Shallow embedding of the `hello_webserver` thread pool (src/lib.rs) and proofs
about it.

The Rust code consists of:
  * `Message` — either `NewJob(Job)` or `Terminate`;
  * `Worker::new(id, receiver)` — spawns a thread looping
    `receiver.lock().unwrap().recv().unwrap()` and matching on the message;
  * `ThreadPool::new(size)` — asserts `size > 0`, creates one mpsc channel,
    wraps its receiver in `Arc<Mutex<..>>` and builds `size` workers sharing it;
  * `ThreadPool::execute(f)` — `self.sender.send(Message::NewJob(job)).unwrap()`;
  * `impl Drop for ThreadPool` — first loop sends one `Terminate` per worker,
    second loop does `worker.thread.take()` and `thread.join().unwrap()`.

Jobs are identified by natural numbers (`JobId`); "executing" a job means
recording its identifier.  The mpsc channel is a FIFO list of messages.  The
concurrent behaviour of the worker threads is modelled as a small-step
transition relation `Step` over a system state holding the channel contents,
each worker's phase, the mutex owner and a log of executed jobs.
-/

namespace RustWebserver

/-- Identifier standing for a `Job = Box<dyn FnOnce() + Send>` closure. -/
abbrev JobId := Nat

/-- The `Message` enum of src/lib.rs. -/
inductive Message where
  | NewJob (job : JobId)
  | Terminate
deriving DecidableEq, Repr

/-- The mpsc channel: a FIFO queue of messages plus the flag recording whether
the receiving end has been dropped (in which case `send` returns `Err`). -/
structure Channel where
  queue : List Message
  receiverDropped : Bool
deriving DecidableEq, Repr

/-- The `mpsc::Sender::send` operation: fails (returns `none`, modelling `Err`)
exactly when the receiving end is gone, otherwise appends the message at the
tail of the FIFO queue. -/
def Channel.send (c : Channel) (m : Message) : Option Channel :=
  if c.receiverDropped then none
  else some { c with queue := c.queue ++ [m] }

/-- The `Worker` struct: an id, the shared consuming end it was handed
(`Arc<Mutex<mpsc::Receiver<Message>>>`, identified by a number), and
`thread : Option<JoinHandle<()>>`; the handle is identified by a number. -/
structure Worker where
  id : Nat
  receiver : Nat
  thread : Option Nat
deriving DecidableEq, Repr

/-- The `Worker::new(id, receiver)` constructor: stores the id and the receiver
clone it is given, spawns one thread and stores `Some(handle)`.  The handle is
identified with the worker id, as each worker spawns exactly one thread. -/
def Worker.new (id : Nat) (receiver : Nat) : Worker :=
  { id := id, receiver := receiver, thread := some id }

/-- The `ThreadPool` struct: the worker vector and (standing for the `sender`
field) the identity of the single channel whose consuming end the workers
share. -/
structure ThreadPool where
  workers : List Worker
  receiverId : Nat
deriving DecidableEq, Repr

/-- The `ThreadPool::new(size)` constructor.  `assert!(size > 0)` panics — hence
`none` — before the channel or any worker is created; otherwise one channel is
created (its consuming end here named `0`) and `size` workers are built, each
receiving a clone of the same consuming end. -/
def ThreadPool.new (size : Nat) : Option ThreadPool :=
  if 0 < size then
    some { workers := (List.range size).map fun id => Worker.new id 0,
           receiverId := 0 }
  else none

/-- The `ThreadPool::execute(f)` method:
`self.sender.send(Message::NewJob(job)).unwrap()`.  It only touches the
channel — `none` models the `unwrap` panic when `send` returned `Err` — and
returns as soon as the message is enqueued, leaving the pool untouched. -/
def ThreadPool.execute (p : ThreadPool) (c : Channel) (j : JobId) :
    Option (ThreadPool × Channel) :=
  match Channel.send c (Message.NewJob j) with
  | some c' => some (p, c')
  | none => none

/-- The second loop of `Drop for ThreadPool`: for each worker in order,
`worker.thread.take()` and, when it was `Some(thread)`, `thread.join().unwrap()`.
`joinOk h` tells whether joining handle `h` returns `Ok` (the thread ended
normally).  Returns the list of handles actually joined, the updated worker
list, and whether the loop panicked (an `unwrap` on a failed join aborts the
loop on the spot). -/
def dropJoinPass (joinOk : Nat → Bool) : List Worker → List Nat × List Worker × Bool
  | [] => ([], [], false)
  | w :: rest =>
    match w.thread with
    | none => let r := dropJoinPass joinOk rest
              (r.1, { w with thread := none } :: r.2.1, r.2.2)
    | some h =>
      if joinOk h then
        let r := dropJoinPass joinOk rest
        (h :: r.1, { w with thread := none } :: r.2.1, r.2.2)
      else
        ([h], { w with thread := none } :: rest, true)

/-- The first loop of `Drop for ThreadPool`: `for _ in &self.workers`, send one
`Terminate` onto the channel.  During shutdown the workers still hold the
receiver, so every send succeeds and simply appends to the FIFO queue. -/
def dropSends (workers : List Worker) (chan : List Message) : List Message :=
  workers.foldl (fun c _ => c ++ [Message.Terminate]) chan

/-- Observable events of the shutdown protocol. -/
inductive DropEvent where
  | sendTerminate
  | joinWorker (h : Nat)
deriving DecidableEq, Repr

/-- The whole `Drop for ThreadPool::drop`: the first loop enqueues one
`Terminate` per worker, and only then the second loop joins the workers.
Returns the event trace, the channel contents after the sends, the final worker
list and whether the join loop panicked. -/
def ThreadPool.drop (joinOk : Nat → Bool) (p : ThreadPool) (chan : List Message) :
    List DropEvent × List Message × List Worker × Bool :=
  let chan' := dropSends p.workers chan
  let r := dropJoinPass joinOk p.workers
  ((p.workers.map fun _ => DropEvent.sendTerminate) ++ r.1.map DropEvent.joinWorker,
   chan', r.2.1, r.2.2)

/-- Events observable from one worker thread's loop. -/
inductive WEvent where
  | start (j : JobId)
  | finish (j : JobId)
  | terminated
  | panicked
deriving DecidableEq, Repr

/-- One worker's loop, given the sequence of messages it will dequeue and
whether the sending end has been dropped once that sequence is exhausted.  A
`NewJob` runs the job synchronously and loops again; a `Terminate` breaks the
loop (the thread ends normally); if the queue runs dry with the sender dropped,
`recv()` returns `Err` and the `unwrap` panics; with the sender alive, the
worker simply blocks (the trace just stops). -/
def workerLoop : List Message → Bool → List WEvent
  | [], closed => if closed then [WEvent.panicked] else []
  | Message.NewJob j :: rest, closed =>
      WEvent.start j :: WEvent.finish j :: workerLoop rest closed
  | Message.Terminate :: _, _ => [WEvent.terminated]

/-- Phase of one worker thread inside its loop:
  * `idle` — at the top of the loop, about to call `receiver.lock()`;
  * `locked` — holding the mutex, inside `recv()`;
  * `running j` — mutex released (the guard is a temporary dropped at the end
    of the `let` statement), executing `job()`;
  * `done` — broke out of the loop after a `Terminate`; the thread has ended. -/
inductive WPhase where
  | idle
  | locked
  | running (j : JobId)
  | done
deriving DecidableEq, Repr

/-- Global state of the running system: the pending FIFO channel contents, each
worker thread's phase, the owner of the mutex around the receiver, the log of
completed jobs in completion order, and the log of dequeued messages in dequeue
order. -/
structure SysState where
  chan : List Message
  workers : List WPhase
  lockHolder : Option Nat
  executed : List JobId
  consumed : List Message
deriving DecidableEq, Repr

/-- Small-step semantics of the worker loops of src/lib.rs, with the worker
acting at position `l.length`:
  * `acquire` — `receiver.lock().unwrap()` succeeds when nobody holds the mutex;
  * `recvJob` — `recv()` returns the head of the FIFO queue, a `NewJob`; the
    guard is dropped (mutex released) before the job runs;
  * `recvTerm` — `recv()` returns a `Terminate`; the worker breaks out of its
    loop and its thread ends;
  * `finishJob` — `job()` returns; the worker loops back to `idle`. -/
inductive Step : SysState → SysState → Prop where
  | acquire (s : SysState) (l r : List WPhase) :
      s.workers = l ++ WPhase.idle :: r →
      s.lockHolder = none →
      Step s { s with workers := l ++ WPhase.locked :: r, lockHolder := some l.length }
  | recvJob (s : SysState) (l r : List WPhase) (j : JobId) (rest : List Message) :
      s.workers = l ++ WPhase.locked :: r →
      s.lockHolder = some l.length →
      s.chan = Message.NewJob j :: rest →
      Step s { s with workers := l ++ WPhase.running j :: r, lockHolder := none,
                      chan := rest, consumed := s.consumed ++ [Message.NewJob j] }
  | recvTerm (s : SysState) (l r : List WPhase) (rest : List Message) :
      s.workers = l ++ WPhase.locked :: r →
      s.lockHolder = some l.length →
      s.chan = Message.Terminate :: rest →
      Step s { s with workers := l ++ WPhase.done :: r, lockHolder := none,
                      chan := rest, consumed := s.consumed ++ [Message.Terminate] }
  | finishJob (s : SysState) (l r : List WPhase) (j : JobId) :
      s.workers = l ++ WPhase.running j :: r →
      Step s { s with workers := l ++ WPhase.idle :: r,
                      executed := s.executed ++ [j] }

/-- Zero or more steps. -/
def Reaches : SysState → SysState → Prop := Relation.ReflTransGen Step

/-- The channel contents once `M` jobs have been submitted and the first drop
loop has enqueued one `Terminate` per worker: the FIFO queue holds the jobs in
submission order followed by `n` terminate messages. -/
def initChan (jobs : List JobId) (n : Nat) : List Message :=
  jobs.map Message.NewJob ++ List.replicate n Message.Terminate

/-- The system state at the start of the modelled execution: full channel, all
`n` workers idle, mutex free, nothing executed or consumed yet. -/
def initState (jobs : List JobId) (n : Nat) : SysState :=
  { chan := initChan jobs n,
    workers := List.replicate n WPhase.idle,
    lockHolder := none,
    executed := [],
    consumed := [] }

/-- The jobs held in a message list, in order. -/
def chanJobs (ms : List Message) : List JobId :=
  ms.filterMap fun m => match m with
    | Message.NewJob j => some j
    | Message.Terminate => none

/-- The jobs currently being executed by the workers, in worker order. -/
def runningJobs (ws : List WPhase) : List JobId :=
  ws.filterMap fun w => match w with
    | WPhase.running j => some j
    | _ => none

/-- How many workers have terminated. -/
def doneCount (ws : List WPhase) : Nat :=
  ws.countP fun w => w == WPhase.done

/-- How many `Terminate` messages a message list holds. -/
def termCount (ms : List Message) : Nat :=
  ms.countP fun m => m == Message.Terminate

/-- Order invariant for a pool of one worker: the jobs dequeued so far are the
completed ones followed by the one currently being executed (single-worker
processing is sequential). -/
def OrderInv (s : SysState) : Prop :=
  chanJobs s.consumed = s.executed ++ runningJobs s.workers

/-- Invariant tying a system state back to the initial channel contents:
the worker count is stable; the dequeued messages followed by the pending ones
are exactly the initial FIFO contents (global FIFO order); terminated workers
and pending `Terminate` messages balance; every job is accounted for exactly
once among executed, running and pending; and the mutex owner is a worker
sitting inside `recv`. -/
structure Inv (jobs : List JobId) (n : Nat) (s : SysState) : Prop where
  wlen : s.workers.length = n
  fifo : s.consumed ++ s.chan = initChan jobs n
  term : doneCount s.workers + termCount s.chan = n
  cnt : ∀ j, s.executed.count j + (runningJobs s.workers).count j
          + (chanJobs s.chan).count j = jobs.count j
  lock : ∀ i, s.lockHolder = some i → s.workers[i]? = some WPhase.locked

/-! ### Indexing helpers for a list split around one position -/

theorem getElem?_middle {α : Type} (l r : List α) (a : α) :
    (l ++ a :: r)[l.length]? = some a := by
  induction l with
  | nil => simp
  | cons x xs ih => simpa using ih

theorem getElem?_middle_ne {α : Type} (l r : List α) (a b : α) (i : Nat)
    (h : i ≠ l.length) : (l ++ a :: r)[i]? = (l ++ b :: r)[i]? := by
  induction l generalizing i with
  | nil =>
    cases i with
    | zero => exact absurd rfl h
    | succ k => simp
  | cons x xs ih =>
    cases i with
    | zero => simp
    | succ k =>
      simp only [List.cons_append, List.getElem?_cons_succ]
      exact ih k (by simpa using h)

/-! ### Distribution lemmas for the bookkeeping functions -/

theorem chanJobs_append (l r : List Message) :
    chanJobs (l ++ r) = chanJobs l ++ chanJobs r := by
  simp [chanJobs]

theorem runningJobs_append (l r : List WPhase) :
    runningJobs (l ++ r) = runningJobs l ++ runningJobs r := by
  simp [runningJobs]

theorem doneCount_append (l r : List WPhase) :
    doneCount (l ++ r) = doneCount l + doneCount r := by
  simp [doneCount, List.countP_append]

theorem termCount_append (l r : List Message) :
    termCount (l ++ r) = termCount l + termCount r := by
  simp [termCount, List.countP_append]

/-! ### The global invariant of the running system -/

theorem inv_init (jobs : List JobId) (n : Nat) : Inv jobs n (initState jobs n) where
  wlen := by simp [initState]
  fifo := by simp [initState]
  term := by
    simp [initState, initChan, doneCount, termCount, List.countP_append]
    induction n with
    | zero => simp [chanJobs]
    | succ k ih => simp [List.replicate_succ, List.countP_cons] at ih ⊢; omega
  cnt := by
    intro j
    simp [initState, initChan, runningJobs, chanJobs_append]
    have h1 : chanJobs (jobs.map Message.NewJob) = jobs := by
      induction jobs with
      | nil => rfl
      | cons a l ih => simp [chanJobs] at ih ⊢; exact ih
    have h2 : chanJobs (List.replicate n Message.Terminate) = [] := by
      induction n with
      | zero => rfl
      | succ k ih => simp [List.replicate_succ, chanJobs] at ih ⊢
    simp [h1, h2]
  lock := by intro i h; simp [initState] at h

theorem chanJobs_nil : chanJobs [] = [] := rfl

theorem chanJobs_cons_job (j : JobId) (rest : List Message) :
    chanJobs (Message.NewJob j :: rest) = j :: chanJobs rest := by
  simp [chanJobs]

theorem chanJobs_cons_term (rest : List Message) :
    chanJobs (Message.Terminate :: rest) = chanJobs rest := by
  simp [chanJobs]

theorem runningJobs_cons (w : WPhase) (ws : List WPhase) :
    runningJobs (w :: ws) = (match w with
      | WPhase.running j => [j]
      | _ => []) ++ runningJobs ws := by
  cases w <;> simp [runningJobs]

theorem doneCount_cons (w : WPhase) (ws : List WPhase) :
    doneCount (w :: ws) = (if w = WPhase.done then 1 else 0) + doneCount ws := by
  cases w <;> simp [doneCount, List.countP_cons, Nat.add_comm]

theorem termCount_cons (m : Message) (ms : List Message) :
    termCount (m :: ms) = (if m = Message.Terminate then 1 else 0) + termCount ms := by
  cases m <;> simp [termCount, List.countP_cons, Nat.add_comm]

theorem inv_step {jobs : List JobId} {n : Nat} {s s' : SysState}
    (hinv : Inv jobs n s) (hstep : Step s s') : Inv jobs n s' := by
  obtain ⟨wlen, fifo, term, cnt, lock⟩ := hinv
  cases hstep with
  | acquire l r hw hl =>
    refine ⟨?_, fifo, ?_, ?_, ?_⟩
    · rw [hw] at wlen; simpa using wlen
    · rw [hw] at term
      simp [doneCount_append, doneCount_cons] at term ⊢
      omega
    · intro j
      have h := cnt j
      rw [hw] at h
      simp [runningJobs_append, runningJobs_cons] at h ⊢
      omega
    · intro i h
      simp only at h
      obtain rfl := Option.some.inj h
      exact getElem?_middle l r WPhase.locked
  | recvJob l r j rest hw hl hc =>
    refine ⟨?_, ?_, ?_, ?_, ?_⟩
    · rw [hw] at wlen; simpa using wlen
    · rw [hc] at fifo
      simpa [List.append_assoc] using fifo
    · rw [hw, hc] at term
      simp [doneCount_append, doneCount_cons, termCount_cons] at term ⊢
      omega
    · intro j'
      have h := cnt j'
      rw [hw, hc] at h
      simp [runningJobs_append, runningJobs_cons, chanJobs_cons_job,
        List.count_append, List.count_cons] at h ⊢
      by_cases hjj : j = j' <;> simp [hjj] at h ⊢ <;> omega
    · intro i h
      simp at h
  | recvTerm l r rest hw hl hc =>
    refine ⟨?_, ?_, ?_, ?_, ?_⟩
    · rw [hw] at wlen; simpa using wlen
    · rw [hc] at fifo
      simpa [List.append_assoc] using fifo
    · rw [hw, hc] at term
      simp [doneCount_append, doneCount_cons, termCount_cons] at term ⊢
      omega
    · intro j'
      have h := cnt j'
      rw [hw, hc] at h
      simp [runningJobs_append, runningJobs_cons, chanJobs_cons_term] at h ⊢
      omega
    · intro i h
      simp at h
  | finishJob l r j hw =>
    refine ⟨?_, fifo, ?_, ?_, ?_⟩
    · rw [hw] at wlen; simpa using wlen
    · rw [hw] at term
      simp [doneCount_append, doneCount_cons] at term ⊢
      omega
    · intro j'
      have h := cnt j'
      rw [hw] at h
      simp [runningJobs_append, runningJobs_cons, List.count_append,
        List.count_cons] at h ⊢
      by_cases hjj : j = j' <;> simp [hjj] at h ⊢ <;> omega
    · intro i h
      simp only at h
      have hk := lock i h
      rw [hw] at hk
      have hne : i ≠ l.length := by
        intro hi
        rw [hi, getElem?_middle] at hk
        exact absurd (Option.some.inj hk) (by simp)
      rw [getElem?_middle_ne l r WPhase.idle (WPhase.running j) i hne]
      exact hk

theorem chanJobs_map_newJob (jobs : List JobId) :
    chanJobs (jobs.map Message.NewJob) = jobs := by
  induction jobs with
  | nil => rfl
  | cons a l ih => simp [chanJobs] at ih ⊢; exact ih

theorem dropSends_eq (ws : List Worker) (chan : List Message) :
    dropSends ws chan = chan ++ List.replicate ws.length Message.Terminate := by
  induction ws generalizing chan with
  | nil => simp [dropSends]
  | cons w rest ih =>
    show dropSends rest (chan ++ [Message.Terminate]) = _
    rw [ih]
    simp [List.replicate_succ]

theorem filterMap_thread_length (ws : List Worker) :
    (ws.filterMap Worker.thread).length
      = (ws.filter (fun w => w.thread.isSome)).length := by
  induction ws with
  | nil => rfl
  | cons w rest ih =>
    cases hw : w.thread <;>
      simp [List.filterMap_cons, List.filter_cons, hw, ih]

theorem dropJoinPass_all_ok (joinOk : Nat → Bool) (ws : List Worker)
    (hok : ∀ h, joinOk h = true) :
    dropJoinPass joinOk ws =
      (ws.filterMap Worker.thread, ws.map (fun w => { w with thread := none }), false) := by
  induction ws with
  | nil => rfl
  | cons w rest ih =>
    cases hw : w.thread with
    | none => simp [dropJoinPass, hw, ih, List.filterMap_cons]
    | some h => simp [dropJoinPass, hw, hok h, ih, List.filterMap_cons]

theorem inv_reaches {jobs : List JobId} {n : Nat} {s s' : SysState}
    (hinv : Inv jobs n s) (h : Reaches s s') : Inv jobs n s' := by
  induction h with
  | refl => exact hinv
  | tail _ hstep ih => exact inv_step ih hstep

/-! ### Claim theorems -/

/-- C3: `ThreadPool::new(size)` panics on `size == 0` (so no pool — and hence
no worker — is ever created), and for every `size ≥ 1` constructs a pool of
exactly `size` workers all sharing the one channel's consuming end; `execute`
never changes the worker vector, so the number of workers is fixed at
construction. -/
theorem pool_new_spec :
    ThreadPool.new 0 = none ∧
    (∀ size : Nat, 1 ≤ size → ∃ p : ThreadPool,
      ThreadPool.new size = some p ∧
      p.workers.length = size ∧
      (∀ w ∈ p.workers, w.receiver = p.receiverId) ∧
      p.workers = (List.range size).map fun i => Worker.new i p.receiverId) ∧
    (∀ (p : ThreadPool) (c : Channel) (j : JobId) (p' : ThreadPool) (c' : Channel),
      ThreadPool.execute p c j = some (p', c') → p'.workers = p.workers) := by
  refine ⟨rfl, ?_, ?_⟩
  · intro size hsize
    refine ⟨⟨(List.range size).map fun i => Worker.new i 0, 0⟩, ?_, by simp, ?_, rfl⟩
    · simp [ThreadPool.new, Nat.lt_of_lt_of_le Nat.zero_lt_one hsize]
    · intro w hw
      simp only [List.mem_map] at hw
      obtain ⟨i, _, rfl⟩ := hw
      rfl
  · intro p c j p' c' h
    by_cases hd : c.receiverDropped <;>
      simp [ThreadPool.execute, Channel.send, hd] at h
    rw [← h.1]

/-- Witness for C3 at `size = 3`. -/
theorem pool_new_spec_witness :
    ∃ p : ThreadPool, ThreadPool.new 3 = some p ∧
      p.workers.length = 3 ∧
      (∀ w ∈ p.workers, w.receiver = p.receiverId) ∧
      p.workers = (List.range 3).map fun i => Worker.new i p.receiverId :=
  pool_new_spec.2.1 3 (by decide)

/-- C5: `execute` with the receiver alive enqueues exactly one `NewJob f`
message at the tail of the channel and returns with the pool untouched (it
never waits on a worker); with the channel closed it panics. -/
theorem execute_enqueue_spec :
    ∀ (p : ThreadPool) (c : Channel) (j : JobId),
      (c.receiverDropped = false →
        ThreadPool.execute p c j =
          some (p, { queue := c.queue ++ [Message.NewJob j], receiverDropped := false })) ∧
      (c.receiverDropped = true → ThreadPool.execute p c j = none) := by
  intro p c j
  constructor
  · intro hd
    simp [ThreadPool.execute, Channel.send, hd]
  · intro hd
    simp [ThreadPool.execute, Channel.send, hd]

/-- Witness for C5 on a concrete channel. -/
theorem execute_enqueue_spec_witness :
    ThreadPool.execute ⟨[], 0⟩ ⟨[Message.Terminate], false⟩ 4 =
      some (⟨[], 0⟩, ⟨[Message.Terminate, Message.NewJob 4], false⟩) :=
  (execute_enqueue_spec ⟨[], 0⟩ ⟨[Message.Terminate], false⟩ 4).1 rfl

/-- C9: if the sending end is dropped and the worker never receives a
`Terminate`, its `recv().unwrap()` panics — the loop trace ends in a panic and
never in a normal termination. -/
theorem recv_closed_panics :
    ∀ ms : List Message, Message.Terminate ∉ ms →
      (∃ evs, workerLoop ms true = evs ++ [WEvent.panicked]) ∧
      WEvent.terminated ∉ workerLoop ms true := by
  intro ms hms
  induction ms with
  | nil => exact ⟨⟨[], rfl⟩, by simp [workerLoop]⟩
  | cons m rest ih =>
    cases m with
    | NewJob j =>
      have hrest : Message.Terminate ∉ rest := fun h => hms (List.mem_cons_of_mem _ h)
      obtain ⟨⟨evs, hevs⟩, hterm⟩ := ih hrest
      refine ⟨⟨WEvent.start j :: WEvent.finish j :: evs, ?_⟩, ?_⟩
      · simp [workerLoop, hevs]
      · simp [workerLoop, hterm]
    | Terminate => exact absurd (List.mem_cons_self _ _) hms

/-- Witness for C9: one pending job, sender dropped. -/
theorem recv_closed_panics_witness :
    (∃ evs, workerLoop [Message.NewJob 3] true = evs ++ [WEvent.panicked]) ∧
      WEvent.terminated ∉ workerLoop [Message.NewJob 3] true :=
  recv_closed_panics [Message.NewJob 3] (by decide)

/-- C10: in a normal shutdown (every join succeeds), the join loop takes each
worker's handle out of its `Option` before joining it: afterwards every
`thread` field is `None`, each stored handle was joined exactly once and in
order, and a worker whose handle was already taken is skipped (contributes no
join). -/
theorem join_once_invariant :
    ∀ (joinOk : Nat → Bool) (ws : List Worker), (∀ h, joinOk h = true) →
      dropJoinPass joinOk ws =
        (ws.filterMap Worker.thread, ws.map (fun w => { w with thread := none }), false) ∧
      (∀ w' ∈ (dropJoinPass joinOk ws).2.1, w'.thread = none) ∧
      (dropJoinPass joinOk ws).1.length
        = (ws.filter (fun w => w.thread.isSome)).length := by
  intro joinOk ws hok
  have heq := dropJoinPass_all_ok joinOk ws hok
  refine ⟨heq, ?_, ?_⟩
  · intro w' hw'
    rw [heq] at hw'
    simp only [List.mem_map] at hw'
    obtain ⟨w, _, rfl⟩ := hw'
    rfl
  · rw [heq]
    exact filterMap_thread_length ws

/-- Witness for C10: a pool of two live workers plus one whose handle was
already taken. -/
theorem join_once_invariant_witness :
    dropJoinPass (fun _ => true) [Worker.new 0 0, ⟨7, 0, none⟩, Worker.new 2 0] =
        ([0, 2],
         [⟨0, 0, none⟩, ⟨7, 0, none⟩, ⟨2, 0, none⟩],
         false) ∧
      (∀ w' ∈ (dropJoinPass (fun _ => true)
          [Worker.new 0 0, ⟨7, 0, none⟩, Worker.new 2 0]).2.1, w'.thread = none) ∧
      (dropJoinPass (fun _ => true) [Worker.new 0 0, ⟨7, 0, none⟩, Worker.new 2 0]).1.length
        = ([Worker.new 0 0, ⟨7, 0, none⟩, Worker.new 2 0].filter
            (fun w => w.thread.isSome)).length :=
  join_once_invariant (fun _ => true) [Worker.new 0 0, ⟨7, 0, none⟩, Worker.new 2 0]
    (fun _ => rfl)

/-- C8 counterexample: with two workers whose first join fails, the
`thread.join().unwrap()` panic aborts the join loop: worker 1 is never
attempted (no join event for its handle) and its handle is still armed
afterwards.  So the shutdown path does not attempt every remaining worker. -/
theorem join_abort_counterexample :
    (dropJoinPass (fun h => h != 0) [Worker.new 0 0, Worker.new 1 0]).1 = [0] ∧
      1 ∉ (dropJoinPass (fun h => h != 0) [Worker.new 0 0, Worker.new 1 0]).1 ∧
      (dropJoinPass (fun h => h != 0) [Worker.new 0 0, Worker.new 1 0]).2.1
        = [⟨0, 0, none⟩, ⟨1, 0, some 1⟩] ∧
      (dropJoinPass (fun h => h != 0) [Worker.new 0 0, Worker.new 1 0]).2.2 = true := by
  decide

/-- C8 amended: when the first failing join is reached, the loop has joined
exactly the handles of the workers before it, takes the failing worker's
handle, and panics — no later worker is joined and later handles stay in
place. -/
theorem join_abort_amended :
    ∀ (joinOk : Nat → Bool) (pre post : List Worker) (w : Worker) (h : Nat),
      (∀ v ∈ pre, ∀ t, v.thread = some t → joinOk t = true) →
      w.thread = some h → joinOk h = false →
      dropJoinPass joinOk (pre ++ w :: post) =
        (pre.filterMap Worker.thread ++ [h],
         pre.map (fun v => { v with thread := none }) ++ { w with thread := none } :: post,
         true) := by
  intro joinOk pre post w h hpre hw hok
  induction pre with
  | nil => simp [dropJoinPass, hw, hok]
  | cons v rest ih =>
    have hrest : ∀ u ∈ rest, ∀ t, u.thread = some t → joinOk t = true :=
      fun u hu => hpre u (List.mem_cons_of_mem _ hu)
    cases hvt : v.thread with
    | none => simp [dropJoinPass, hvt, ih hrest, List.filterMap_cons]
    | some t =>
      have hv := hpre v (List.mem_cons_self _ _) t hvt
      simp [dropJoinPass, hvt, hv, ih hrest, List.filterMap_cons]

/-- Witness for the amended C8: one healthy worker, then the failing one, then
one more that never gets joined. -/
theorem join_abort_amended_witness :
    dropJoinPass (fun t => t != 1) [Worker.new 0 0, Worker.new 1 0, Worker.new 2 0] =
      ([0, 1], [⟨0, 0, none⟩, ⟨1, 0, none⟩, Worker.new 2 0], true) :=
  join_abort_amended (fun t => t != 1) [Worker.new 0 0] [Worker.new 2 0]
    (Worker.new 1 0) 1
    (by
      intro v hv t ht
      simp only [List.mem_singleton] at hv
      subst hv
      cases ht
      rfl)
    rfl rfl

/-- C1: for every pool with `N ≥ 1` workers, the shutdown protocol first
enqueues exactly `N` `Terminate` messages — one per worker, never more, never
fewer — and only then joins the workers: in the event trace every send
precedes every join, with no interleaving. -/
theorem shutdown_two_pass :
    ∀ (joinOk : Nat → Bool) (p : ThreadPool) (chan : List Message),
      1 ≤ p.workers.length →
      (ThreadPool.drop joinOk p chan).1.countP (fun e => e == DropEvent.sendTerminate)
          = p.workers.length ∧
      (ThreadPool.drop joinOk p chan).2.1
          = chan ++ List.replicate p.workers.length Message.Terminate ∧
      (∃ post, (ThreadPool.drop joinOk p chan).1
            = List.replicate p.workers.length DropEvent.sendTerminate ++ post ∧
          ∀ e ∈ post, e ≠ DropEvent.sendTerminate) := by
  intro joinOk p chan _
  refine ⟨?_, ?_, ?_⟩
  · show ((p.workers.map fun _ => DropEvent.sendTerminate)
        ++ (dropJoinPass joinOk p.workers).1.map DropEvent.joinWorker).countP _
      = p.workers.length
    rw [List.countP_append]
    have h1 : ∀ ws : List Worker,
        (ws.map fun _ => DropEvent.sendTerminate).countP
          (fun e => e == DropEvent.sendTerminate) = ws.length := by
      intro ws
      induction ws with
      | nil => rfl
      | cons w rest ih =>
        simp only [List.map_cons, List.countP_cons, ih]
        simp
    have h2 : ∀ hs : List Nat,
        (hs.map DropEvent.joinWorker).countP
          (fun e => e == DropEvent.sendTerminate) = 0 := by
      intro hs
      induction hs with
      | nil => rfl
      | cons x rest ih =>
        simp only [List.map_cons, List.countP_cons, ih]
        simp
    rw [h1, h2]
    omega
  · show dropSends p.workers chan = _
    exact dropSends_eq p.workers chan
  · refine ⟨(dropJoinPass joinOk p.workers).1.map DropEvent.joinWorker, ?_, ?_⟩
    · show (p.workers.map fun _ => DropEvent.sendTerminate) ++ _ = _ ++ _
      congr 1
      induction p.workers with
      | nil => rfl
      | cons w rest ih => simp [List.replicate_succ, ih]
    · intro e he
      simp only [List.mem_map] at he
      obtain ⟨h, _, rfl⟩ := he
      simp

/-- Witness for C1 on a two-worker pool. -/
theorem shutdown_two_pass_witness :
    (ThreadPool.drop (fun _ => true) ⟨[Worker.new 0 0, Worker.new 1 0], 0⟩ []).1.countP
          (fun e => e == DropEvent.sendTerminate) = 2 ∧
      (ThreadPool.drop (fun _ => true) ⟨[Worker.new 0 0, Worker.new 1 0], 0⟩ []).2.1
          = [] ++ List.replicate 2 Message.Terminate ∧
      (∃ post, (ThreadPool.drop (fun _ => true) ⟨[Worker.new 0 0, Worker.new 1 0], 0⟩ []).1
            = List.replicate 2 DropEvent.sendTerminate ++ post ∧
          ∀ e ∈ post, e ≠ DropEvent.sendTerminate) :=
  shutdown_two_pass (fun _ => true) ⟨[Worker.new 0 0, Worker.new 1 0], 0⟩ [] (by decide)

theorem ne_middle_of_getElem {α : Type} {l r : List α} {a b : α} {i : Nat}
    (h : (l ++ a :: r)[i]? = some b) (hab : b ≠ a) : i ≠ l.length := by
  intro hi
  rw [hi, getElem?_middle] at h
  exact hab (Option.some.inj h).symm

theorem doneCount_eq_length {ws : List WPhase} (h : ∀ w ∈ ws, w = WPhase.done) :
    doneCount ws = ws.length := by
  induction ws with
  | nil => rfl
  | cons w rest ih =>
    have hw := h w (List.mem_cons_self _ _)
    rw [doneCount_cons, hw, ih (fun u hu => h u (List.mem_cons_of_mem _ hu))]
    simp [Nat.add_comm]

theorem runningJobs_done_nil {ws : List WPhase} (h : ∀ w ∈ ws, w = WPhase.done) :
    runningJobs ws = [] := by
  induction ws with
  | nil => rfl
  | cons w rest ih =>
    have hw := h w (List.mem_cons_self _ _)
    rw [hw, runningJobs_cons, ih (fun u hu => h u (List.mem_cons_of_mem _ hu))]
    rfl

theorem chan_empty_of_all_done {jobs : List JobId} {n : Nat} {s : SysState}
    (hn : 1 ≤ n) (hinv : Inv jobs n s) (hall : ∀ w ∈ s.workers, w = WPhase.done) :
    s.chan = [] := by
  have hdone : doneCount s.workers = n := by
    rw [doneCount_eq_length hall, hinv.wlen]
  have hterm0 : termCount s.chan = 0 := by
    have := hinv.term
    omega
  rcases List.eq_nil_or_concat s.chan with hnil | ⟨ys, m, hys⟩
  · exact hnil
  · exfalso
    rw [List.concat_eq_append] at hys
    obtain ⟨k, rfl⟩ : ∃ k, n = k + 1 := ⟨n - 1, by omega⟩
    have hfifo := hinv.fifo
    rw [hys] at hfifo
    have h1 : (s.consumed ++ (ys ++ [m])).getLast? = some m := by
      rw [← List.append_assoc, List.getLast?_concat]
    rw [hfifo] at h1
    have h2 : (initChan jobs (k + 1)).getLast? = some Message.Terminate := by
      simp only [initChan, List.replicate_succ']
      rw [← List.append_assoc, List.getLast?_concat]
    rw [h2] at h1
    have hm : m = Message.Terminate := (Option.some.inj h1).symm
    rw [hys, hm, termCount_append, termCount_cons] at hterm0
    simp at hterm0

theorem split_singleton {α : Type} {l r : List α} {x : α}
    (h : (l ++ x :: r).length = 1) : l = [] ∧ r = [] := by
  rw [List.length_append, List.length_cons] at h
  exact ⟨List.eq_nil_of_length_eq_zero (by omega),
    List.eq_nil_of_length_eq_zero (by omega)⟩

theorem nodup_middle_left_eq {α : Type} :
    ∀ (p₁ p₂ q₁ q₂ : List α) (b : α),
      (p₁ ++ b :: q₁).Nodup → p₁ ++ b :: q₁ = p₂ ++ b :: q₂ → p₁ = p₂ := by
  intro p₁
  induction p₁ with
  | nil =>
    intro p₂ q₁ q₂ b hnd heq
    cases p₂ with
    | nil => rfl
    | cons x p₂' =>
      exfalso
      simp only [List.nil_append, List.cons_append] at heq
      obtain ⟨rfl, htail⟩ := List.cons.inj heq
      rw [List.nil_append, List.nodup_cons] at hnd
      apply hnd.1
      rw [htail]
      exact List.mem_append_right _ (List.mem_cons_self _ _)
  | cons a p₁' ih =>
    intro p₂ q₁ q₂ b hnd heq
    cases p₂ with
    | nil =>
      exfalso
      simp only [List.cons_append, List.nil_append] at heq
      obtain ⟨rfl, htail⟩ := List.cons.inj heq
      rw [List.cons_append, List.nodup_cons] at hnd
      exact hnd.1 (List.mem_append_right _ (List.mem_cons_self _ _))
    | cons x p₂' =>
      simp only [List.cons_append] at heq
      obtain ⟨rfl, htail⟩ := List.cons.inj heq
      rw [List.cons_append, List.nodup_cons] at hnd
      rw [ih p₂' q₁ q₂ b hnd.2 htail]

theorem orderInv_step {s s' : SysState} (hlen : s.workers.length = 1)
    (h : OrderInv s) (hstep : Step s s') : OrderInv s' := by
  unfold OrderInv at h ⊢
  cases hstep with
  | acquire l r hw hl =>
    rw [hw] at hlen h
    obtain ⟨rfl, rfl⟩ := split_singleton hlen
    simp [runningJobs] at h ⊢
    exact h
  | recvJob l r j rest hw hl hc =>
    rw [hw] at hlen h
    obtain ⟨rfl, rfl⟩ := split_singleton hlen
    simp only [chanJobs_append, chanJobs_cons_job, chanJobs_nil]
    simp [runningJobs] at h ⊢
    simp [h]
  | recvTerm l r rest hw hl hc =>
    rw [hw] at hlen h
    obtain ⟨rfl, rfl⟩ := split_singleton hlen
    simp only [chanJobs_append, chanJobs_cons_term, chanJobs_nil]
    simp [runningJobs] at h ⊢
    simp [h]
  | finishJob l r j hw =>
    rw [hw] at hlen h
    obtain ⟨rfl, rfl⟩ := split_singleton hlen
    simp [runningJobs] at h ⊢
    simp [h]

theorem orderInv_reaches {jobs : List JobId} {s : SysState}
    (hr : Reaches (initState jobs 1) s) : OrderInv s := by
  induction hr with
  | refl => rfl
  | tail hr' hstep ih =>
    have hinv := inv_reaches (inv_init jobs 1) hr'
    exact orderInv_step hinv.wlen ih hstep

/-- C4: behaviour of a worker per dequeued message, as properties of the step
relation.  A worker that is `done` (has consumed a `Terminate`) stays `done`
forever; a state where every worker is `done` is stuck — no further message is
ever consumed; a worker that dequeued `NewJob j` (phase `running j`) either is
still running it or has finished by appending `j` exactly once to the executed
log and is back to `idle`, dequeuing again; and any message consumption is
performed by a worker sitting inside `recv` with the mutex — never by a `done`
worker. -/
theorem worker_message_handling :
    ∀ (s s' : SysState), Step s s' →
      (∀ i : Nat, s.workers[i]? = some WPhase.done → s'.workers[i]? = some WPhase.done) ∧
      ((∀ w ∈ s.workers, w = WPhase.done) → False) ∧
      (∀ (i : Nat) (j : JobId), s.workers[i]? = some (WPhase.running j) →
        s'.workers[i]? = some (WPhase.running j) ∨
          (s'.workers[i]? = some WPhase.idle ∧ s'.executed = s.executed ++ [j])) ∧
      (s'.consumed ≠ s.consumed →
        ∃ k : Nat, s.workers[k]? = some WPhase.locked ∧ s.lockHolder = some k) := by
  intro s s' hstep
  cases hstep with
  | acquire l r hw hl =>
    refine ⟨?_, ?_, ?_, ?_⟩
    · intro i hi
      rw [hw] at hi
      have hne := ne_middle_of_getElem hi (by simp)
      show (l ++ WPhase.locked :: r)[i]? = some WPhase.done
      rw [getElem?_middle_ne l r WPhase.locked WPhase.idle i hne]
      exact hi
    · intro hall
      have hmem : WPhase.idle ∈ s.workers := by rw [hw]; simp
      exact absurd (hall _ hmem) (by simp)
    · intro i j hi
      rw [hw] at hi
      have hne := ne_middle_of_getElem hi (by simp)
      left
      show (l ++ WPhase.locked :: r)[i]? = some (WPhase.running j)
      rw [getElem?_middle_ne l r WPhase.locked WPhase.idle i hne]
      exact hi
    · intro hne
      exact absurd rfl hne
  | recvJob l r j rest hw hl hc =>
    refine ⟨?_, ?_, ?_, ?_⟩
    · intro i hi
      rw [hw] at hi
      have hne := ne_middle_of_getElem hi (by simp)
      show (l ++ WPhase.running j :: r)[i]? = some WPhase.done
      rw [getElem?_middle_ne l r (WPhase.running j) WPhase.locked i hne]
      exact hi
    · intro hall
      have hmem : WPhase.locked ∈ s.workers := by rw [hw]; simp
      exact absurd (hall _ hmem) (by simp)
    · intro i j' hi
      rw [hw] at hi
      have hne := ne_middle_of_getElem hi (by simp)
      left
      show (l ++ WPhase.running j :: r)[i]? = some (WPhase.running j')
      rw [getElem?_middle_ne l r (WPhase.running j) WPhase.locked i hne]
      exact hi
    · intro _
      refine ⟨l.length, ?_, hl⟩
      rw [hw]
      exact getElem?_middle l r WPhase.locked
  | recvTerm l r rest hw hl hc =>
    refine ⟨?_, ?_, ?_, ?_⟩
    · intro i hi
      rw [hw] at hi
      by_cases hil : i = l.length
      · subst hil
        show (l ++ WPhase.done :: r)[l.length]? = some WPhase.done
        exact getElem?_middle l r WPhase.done
      · show (l ++ WPhase.done :: r)[i]? = some WPhase.done
        rw [getElem?_middle_ne l r WPhase.done WPhase.locked i hil]
        exact hi
    · intro hall
      have hmem : WPhase.locked ∈ s.workers := by rw [hw]; simp
      exact absurd (hall _ hmem) (by simp)
    · intro i j' hi
      rw [hw] at hi
      have hne := ne_middle_of_getElem hi (by simp)
      left
      show (l ++ WPhase.done :: r)[i]? = some (WPhase.running j')
      rw [getElem?_middle_ne l r WPhase.done WPhase.locked i hne]
      exact hi
    · intro _
      refine ⟨l.length, ?_, hl⟩
      rw [hw]
      exact getElem?_middle l r WPhase.locked
  | finishJob l r j hw =>
    refine ⟨?_, ?_, ?_, ?_⟩
    · intro i hi
      rw [hw] at hi
      have hne := ne_middle_of_getElem hi (by simp)
      show (l ++ WPhase.idle :: r)[i]? = some WPhase.done
      rw [getElem?_middle_ne l r WPhase.idle (WPhase.running j) i hne]
      exact hi
    · intro hall
      have hmem : WPhase.running j ∈ s.workers := by rw [hw]; simp
      exact absurd (hall _ hmem) (by simp)
    · intro i j' hi
      rw [hw] at hi
      by_cases hil : i = l.length
      · subst hil
        rw [getElem?_middle] at hi
        have hj : j = j' := by
          have := Option.some.inj hi
          cases this
          rfl
        subst hj
        right
        refine ⟨?_, rfl⟩
        show (l ++ WPhase.idle :: r)[l.length]? = some WPhase.idle
        exact getElem?_middle l r WPhase.idle
      · left
        show (l ++ WPhase.idle :: r)[i]? = some (WPhase.running j')
        rw [getElem?_middle_ne l r WPhase.idle (WPhase.running j) i hil]
        exact hi
    · intro hne
      exact absurd rfl hne

/-- Witness for C4: a concrete `finishJob` step of worker 0 while worker 1 is
`done`; the running job is invoked exactly once and the worker returns to
idle. -/
theorem worker_message_handling_witness :
    (⟨[], [WPhase.idle, WPhase.done], none, [7], []⟩ : SysState).workers[0]?
        = some (WPhase.running 7) ∨
      ((⟨[], [WPhase.idle, WPhase.done], none, [7], []⟩ : SysState).workers[0]?
          = some WPhase.idle ∧
        (⟨[], [WPhase.idle, WPhase.done], none, [7], []⟩ : SysState).executed
          = ([] : List JobId) ++ [7]) :=
  (worker_message_handling ⟨[], [WPhase.running 7, WPhase.done], none, [], []⟩ _
      (Step.finishJob _ [] [WPhase.done] 7 rfl)).2.2.1 0 7 rfl

/-- C6: in every reachable state the mutex around the channel's consuming end
is held only by a worker that is inside the dequeue (`recv`) — in particular a
worker executing a job has released it, so other workers can dequeue and run
jobs concurrently. -/
theorem lock_released_before_job :
    ∀ (jobs : List JobId) (n : Nat) (s : SysState),
      Reaches (initState jobs n) s →
      (∀ i, s.lockHolder = some i → s.workers[i]? = some WPhase.locked) ∧
      (∀ i j, s.workers[i]? = some (WPhase.running j) → s.lockHolder ≠ some i) := by
  intro jobs n s hr
  have hinv := inv_reaches (inv_init jobs n) hr
  refine ⟨hinv.lock, ?_⟩
  intro i j hi hl
  have hk := hinv.lock i hl
  rw [hi] at hk
  exact absurd (Option.some.inj hk) (by simp)

/-- Witness for C6: after worker 0 of a one-worker pool dequeued job 4 the
mutex is free. -/
theorem lock_released_before_job_witness :
    (⟨[Message.Terminate], [WPhase.running 4], none, [],
        [Message.NewJob 4]⟩ : SysState).lockHolder ≠ some 0 :=
  (lock_released_before_job [4] 1
      ⟨[Message.Terminate], [WPhase.running 4], none, [], [Message.NewJob 4]⟩
      (Relation.ReflTransGen.head (Step.acquire _ [] [] rfl rfl)
        (Relation.ReflTransGen.head
          (Step.recvJob _ [] [] 4 [Message.Terminate] rfl rfl rfl)
          Relation.ReflTransGen.refl))).2 0 4 rfl

/-- C2: for a pool of `N ≥ 1` workers and any `M` jobs submitted before
shutdown begins, in every execution in which all workers have terminated (the
condition for the join pass, and hence the pool's destruction, to complete),
the log of executed jobs is a permutation of the submitted jobs — none is
dropped and each is invoked exactly once (all counts agree). -/
theorem jobs_all_complete :
    ∀ (jobs : List JobId) (n : Nat) (s : SysState),
      1 ≤ n → Reaches (initState jobs n) s →
      (∀ w ∈ s.workers, w = WPhase.done) →
      s.executed.Perm jobs ∧ ∀ j : JobId, s.executed.count j = jobs.count j := by
  intro jobs n s hn hr hall
  have hinv := inv_reaches (inv_init jobs n) hr
  have hchan := chan_empty_of_all_done hn hinv hall
  have hcount : ∀ j : JobId, s.executed.count j = jobs.count j := by
    intro j
    have hc := hinv.cnt j
    rw [hchan, runningJobs_done_nil hall, chanJobs_nil] at hc
    simpa using hc
  exact ⟨List.perm_iff_count.mpr hcount, hcount⟩

/-- Witness for C2: one worker runs job 5 to completion and terminates; the
executed log is exactly the submitted list. -/
theorem jobs_all_complete_witness :
    (⟨[], [WPhase.done], none, [5],
        [Message.NewJob 5, Message.Terminate]⟩ : SysState).executed.Perm [5] ∧
      ∀ j : JobId,
        (⟨[], [WPhase.done], none, [5],
            [Message.NewJob 5, Message.Terminate]⟩ : SysState).executed.count j
          = ([5] : List JobId).count j :=
  jobs_all_complete [5] 1
    ⟨[], [WPhase.done], none, [5], [Message.NewJob 5, Message.Terminate]⟩
    (by decide)
    (Relation.ReflTransGen.head (Step.acquire _ [] [] rfl rfl)
      (Relation.ReflTransGen.head
        (Step.recvJob _ [] [] 5 [Message.Terminate] rfl rfl rfl)
        (Relation.ReflTransGen.head (Step.finishJob _ [] [] 5 rfl)
          (Relation.ReflTransGen.head (Step.acquire _ [] [] rfl rfl)
            (Relation.ReflTransGen.head (Step.recvTerm _ [] [] [] rfl rfl rfl)
              Relation.ReflTransGen.refl)))))
    (by intro w hw; simpa using hw)

/-- C7: messages leave the channel in exactly the order they were enqueued —
in every reachable state the consumed log is a prefix of the initial FIFO
contents; and for a pool of size 1, with jobs `A` before `B` in the submission
order, whenever the worker is running `B` the job `A` has already completed. -/
theorem fifo_order :
    (∀ (jobs : List JobId) (n : Nat) (s : SysState),
        Reaches (initState jobs n) s →
        ∃ rest, s.consumed ++ rest = initChan jobs n) ∧
    (∀ (jobs l1 l2 l3 : List JobId) (A B : JobId) (s : SysState) (i : Nat),
        jobs.Nodup → jobs = l1 ++ A :: (l2 ++ B :: l3) →
        Reaches (initState jobs 1) s →
        s.workers[i]? = some (WPhase.running B) →
        A ∈ s.executed) := by
  constructor
  · intro jobs n s hr
    exact ⟨s.chan, (inv_reaches (inv_init jobs n) hr).fifo⟩
  · intro jobs l1 l2 l3 A B s i hnd hjobs hr hi
    have hinv := inv_reaches (inv_init jobs 1) hr
    have hord := orderInv_reaches hr
    have hws : s.workers = [WPhase.running B] := by
      rcases hw : s.workers with _ | ⟨w, t⟩
      · rw [hw] at hi
        simp at hi
      · have hlen := hinv.wlen
        rw [hw] at hlen
        simp at hlen
        subst hlen
        rw [hw] at hi
        cases i with
        | zero =>
          simp at hi
          rw [hi]
        | succ k => simp at hi
    have h1 : chanJobs s.consumed = s.executed ++ [B] := by
      have hthis := hord
      unfold OrderInv at hthis
      rw [hws] at hthis
      simpa [runningJobs] using hthis
    have h2 : chanJobs s.consumed ++ chanJobs s.chan = jobs := by
      have hf := congrArg chanJobs hinv.fifo
      rw [chanJobs_append] at hf
      rw [hf]
      simp [initChan, chanJobs_append, chanJobs_map_newJob]
      rfl
    have h3 : s.executed ++ B :: chanJobs s.chan = jobs := by
      rw [← h2, h1]
      simp [List.append_assoc]
    have h4 : jobs = (l1 ++ A :: l2) ++ B :: l3 := by
      rw [hjobs]
      simp [List.append_assoc]
    have h5 : s.executed = l1 ++ A :: l2 := by
      apply nodup_middle_left_eq s.executed (l1 ++ A :: l2) (chanJobs s.chan) l3 B
      · rw [h3]
        exact hnd
      · rw [h3, h4]
    rw [h5]
    exact List.mem_append_right _ (List.mem_cons_self _ _)

/-- Witness for C7: pool of size 1 with jobs 5 then 8; while the worker runs
job 8, job 5 is already in the executed log. -/
theorem fifo_order_witness : (5 : JobId) ∈ ([5] : List JobId) :=
  fifo_order.2 [5, 8] [] [] [] 5 8
    ⟨[Message.Terminate], [WPhase.running 8], none, [5],
      [Message.NewJob 5, Message.NewJob 8]⟩
    0 (by decide) rfl
    (Relation.ReflTransGen.head (Step.acquire _ [] [] rfl rfl)
      (Relation.ReflTransGen.head
        (Step.recvJob _ [] [] 5 [Message.NewJob 8, Message.Terminate] rfl rfl rfl)
        (Relation.ReflTransGen.head (Step.finishJob _ [] [] 5 rfl)
          (Relation.ReflTransGen.head (Step.acquire _ [] [] rfl rfl)
            (Relation.ReflTransGen.head
              (Step.recvJob _ [] [] 8 [Message.Terminate] rfl rfl rfl)
              Relation.ReflTransGen.refl)))))
    rfl

end RustWebserver
